import Mathlib

/-!
Verification of the incrementally-maintained ATSP tour representation and its
local-move engines (3-opt segment exchange, shift-insert relocation, ant-colony
sampling), a sparse Fisher-Yates permutation generator, and the construction-time
assignment-relaxation lower bound.

Distances are Python integers, modelled as `Int`; the lower bound is a Python
float produced by integer sums and divisions by two, modelled exactly as `ℚ`.
City lists are `List ℕ`.  Python list indexing `l[i]` on an in-range index is
modelled with `List.getD l i 0`; `l[i:j]` is `(l.drop i).take (j - i)`.
-/

namespace TSP

/-- A distance matrix, as a total function on city indices.  Concrete problems
instantiate it from a literal matrix. -/
abbrev Dist := Nat → Nat → Int

/-- Sum of the distances of consecutive cities of an (open) path.
This is the accumulated `total_distance` of a solution before closing. -/
def pathDist (d : Dist) : List Nat → Int
  | [] => 0
  | [_] => 0
  | a :: b :: t => d a b + pathDist d (b :: t)

/-- Exact length of the closed tour stored in `order`: the consecutive edges
plus the closing edge from the last city back to the first. -/
def tourDistance (d : Dist) (l : List Nat) : Int :=
  pathDist d l + d (l.getLast?.getD 0) (l.headD 0)

/-- The cut-point triples `(i, j, k)` enumerated by `Atsp3Opt.local_moves`:
`i ∈ range(dimension - 5)`, `j ∈ range(i + 2, dimension - 3)`,
`k ∈ range(j + 2, dimension - 1)` (`src/src/atsp_3opt.py`, lines 33-41). -/
def cutTriples (n : Nat) : List (Nat × Nat × Nat) :=
  (List.range (n - 5)).flatMap fun i =>
    (List.range' (i + 2) ((n - 3) - (i + 2))).flatMap fun j =>
      (List.range' (j + 2) ((n - 1) - (j + 2))).map fun k => (i, j, k)

/-- A 3-opt move: the six boundary cities of the three cut edges
(`LocalMove3Opt` in `src/src/atsp_3opt.py`). -/
structure Move3Opt where
  x1 : Nat
  x2 : Nat
  y1 : Nat
  y2 : Nat
  z1 : Nat
  z2 : Nat
deriving DecidableEq, Repr

/-- The move built from the cut points `(i, j, k)` of the tour `vc`:
`X1 = vc[i], X2 = vc[i+1], Y1 = vc[j], Y2 = vc[j+1], Z1 = vc[k], Z2 = vc[k+1]`. -/
def moveAt (vc : List Nat) (i j k : Nat) : Move3Opt :=
  ⟨vc.getD i 0, vc.getD (i + 1) 0, vc.getD j 0, vc.getD (j + 1) 0,
   vc.getD k 0, vc.getD (k + 1) 0⟩

/-- `Atsp3Opt.local_moves`: one move per enumerated cut triple, in loop order. -/
def localMoves3Opt (n : Nat) (vc : List Nat) : List Move3Opt :=
  (cutTriples n).map fun t => moveAt vc t.1 t.2.1 t.2.2

/-- `Atsp3Opt.objective_incr_local`: removed edge weights minus added edge
weights, `(d(X1,X2)+d(Y1,Y2)+d(Z1,Z2)) - (d(X1,Y2)+d(Y1,Z2)+d(Z1,X2))`. -/
def objectiveIncr3Opt (d : Dist) (m : Move3Opt) : Int :=
  (d m.x1 m.x2 + d m.y1 m.y2 + d m.z1 m.z2)
    - (d m.x1 m.y2 + d m.y1 m.z2 + d m.z1 m.x2)

/-- The reconnected order built by `Atsp3Opt.step`: with `indexes` the
first-occurrence positions of the six boundary cities, the new order is
`vc[: i0+1] + vc[i3 : i4+1] + vc[i1 : i2+1] + vc[i5 :]`. -/
def step3Opt (vc : List Nat) (m : Move3Opt) : List Nat :=
  let i0 := vc.indexOf m.x1
  let i1 := vc.indexOf m.x2
  let i2 := vc.indexOf m.y1
  let i3 := vc.indexOf m.y2
  let i4 := vc.indexOf m.z1
  let i5 := vc.indexOf m.z2
  vc.take (i0 + 1)
    ++ ((vc.drop i3).take (i4 + 1 - i3))
    ++ ((vc.drop i1).take (i2 + 1 - i1))
    ++ vc.drop i5

/-! ### Shift-insert (Or-opt) engine, `src/src/local_solvers/atsp_shift_insert.py` -/

/-- `AtspShiftInsert._is_move_valid`: the destination index must differ from the
city index and from the two cyclically preceding indices.  Python's
`(city_index - 1) % dimension` on `0 ≤ city_index < dimension` equals
`(city_index + dimension - 1) % dimension`. -/
def isMoveValidSI (n i j : Nat) : Bool :=
  (i != j) && ((i + n - 1) % n != j) && ((i + n - 2) % n != j)

/-- `AtspShiftInsert._calculate_local_move_distance`: the six-term update of the
total distance. -/
def calcLocalMoveDistance (d : Dist) (city prevCity nextCity dest prevDest : Nat)
    (totalDistance : Int) : Int :=
  totalDistance - d prevCity city - d city nextCity + d prevCity nextCity
    - d prevDest dest + d city dest + d prevDest city

/-- `AtspShiftInsert.step`: reads the five boundary cities (the destination's
predecessor is read with plain index `j - 1`, which for `j = 0` is Python's
negative index `-1`, i.e. position `n - 1`), updates the total through
`_calculate_local_move_distance`, then pops position `i` and re-inserts the city
at position `j`.  Returns (new order, new total distance). -/
def stepSI (d : Dist) (n : Nat) (vc : List Nat) (total : Int) (i j : Nat) :
    List Nat × Int :=
  let city := vc.getD i 0
  let prevCity := vc.getD ((i + n - 1) % n) 0
  let nextCity := vc.getD ((i + 1) % n) 0
  let dest := vc.getD j 0
  let prevDest := vc.getD ((j + n - 1) % n) 0
  let total' := calcLocalMoveDistance d city prevCity nextCity dest prevDest total
  ((vc.eraseIdx i).insertIdx j city, total')

/-- `AtspShiftInsert.objective_incr_local`: old total minus the total the move
would produce (positive = improvement). -/
def objectiveIncrSI (d : Dist) (n : Nat) (vc : List Nat) (total : Int) (i j : Nat) :
    Int :=
  let city := vc.getD i 0
  let prevCity := vc.getD ((i + n - 1) % n) 0
  let nextCity := vc.getD ((i + 1) % n) 0
  let dest := vc.getD j 0
  let prevDest := vc.getD ((j + n - 1) % n) 0
  total - calcLocalMoveDistance d city prevCity nextCity dest prevDest total

/-! ### Problem and Solution, `src/src/travelling_salesman.py` -/

/-- Insertion into a list of `(index, value)` pairs ordered by value, ties
broken by ascending index: the order produced by Python's stable
`sorted(enumerate(row), key=lambda x: x[1])`. -/
def insertRanked (x : Nat × Int) : List (Nat × Int) → List (Nat × Int)
  | [] => [x]
  | y :: t =>
    if x.2 < y.2 ∨ (x.2 = y.2 ∧ x.1 ≤ y.1) then x :: y :: t else y :: insertRanked x t

/-- Stable sort of `(index, value)` pairs by value. -/
def rankSort (l : List (Nat × Int)) : List (Nat × Int) := l.foldr insertRanked []

/-- City indices ordered by ascending value (`sorted(enumerate(vals), key=value)`
followed by projection to the indices). -/
def sortedIndices (vals : List Int) : List Nat := (rankSort vals.enum).map Prod.fst

/-- A problem: dimension and distance matrix (`Problem.__init__`). -/
structure Problem where
  dimension : Nat
  matrix : List (List Int)

/-- `distance_matrix[i][j]`. -/
def Problem.dist (p : Problem) : Dist := fun i j => (p.matrix.getD i []).getD j 0

/-- `shortest_out[i]`: all city indices (including `i` itself) ordered by
ascending `distance_matrix[i][·]`. -/
def Problem.shortestOut (p : Problem) (i : Nat) : List Nat :=
  sortedIndices (p.matrix.getD i [])

/-- `shortest_in[i]`: all city indices (including `i` itself) ordered by
ascending `distance_matrix[·][i]`. -/
def Problem.shortestIn (p : Problem) (i : Nat) : List Nat :=
  sortedIndices (p.matrix.map fun row => row.getD i 0)

/-- `Problem._initialize_lower_bound`: half the sum over cities of the first
entry of both rankings (which, the diagonal being included in the sort, is
usually the city itself). -/
def Problem.lowerBound (p : Problem) : ℚ :=
  (((List.range p.dimension).map fun i =>
    p.dist i ((p.shortestOut i).getD 0 0) + p.dist ((p.shortestIn i).getD 0 0) i).sum : Int)
    / 2

/-- The mutable solution state: visiting order, unvisited set (kept as an
ascending list), exact accumulated distance, bound value, and the two per-city
cursor arrays. -/
structure Solution where
  visited : List Nat
  unvisited : List Nat
  totalDistance : Int
  lowerBound : ℚ
  csi : List Nat
  cso : List Nat
deriving DecidableEq, Repr

/-- `Solution.__init__`: note that it always rebuilds `current_shortest_in` and
`current_shortest_out` as fresh all-zero arrays of length `dimension`. -/
def mkSolution (p : Problem) (visited unvisited : List Nat) (total : Int) (lb : ℚ) :
    Solution :=
  ⟨visited, unvisited, total, lb,
   List.replicate p.dimension 0, List.replicate p.dimension 0⟩

/-- `Solution.copy`: a new `Solution` built through `__init__` from copies of
the order and the unvisited set and the two scalar fields. -/
def Solution.copy (p : Problem) (s : Solution) : Solution :=
  mkSolution p s.visited s.unvisited s.totalDistance s.lowerBound

/-- `Problem.empty_solution`: anchor-only tour. -/
def emptySolution (p : Problem) : Solution :=
  mkSolution p [0] (List.range' 1 (p.dimension - 1)) 0 p.lowerBound

/-- `Solution.is_feasible`. -/
def Solution.isFeasible (s : Solution) : Bool := s.unvisited.length == 0

/-- `Solution.objective` (src/src revision): the total distance once feasible,
`None` otherwise. -/
def Solution.objective (s : Solution) : Option Int :=
  if s.isFeasible then some s.totalDistance else none

/-- Advance a cursor from rank `c` to the first rank whose candidate fails
`bad`, mirroring the `while bad(ranking[cursor]): cursor += 1` loops of
`_update_lower_bound`.  Fuelled by the length of the ranking: if every
remaining candidate is bad the cursor stops past the end (where Python would
raise `IndexError`; never reached in the developments below). -/
def advanceCursorAux (ranking : List Nat) (bad : Nat → Bool) : Nat → Nat → Nat
  | 0, c => c
  | fuel + 1, c =>
    if bad (ranking.getD c 0) then advanceCursorAux ranking bad fuel (c + 1) else c

/-- Entry point of the cursor advance. -/
def advanceCursor (ranking : List Nat) (bad : Nat → Bool) (c : Nat) : Nat :=
  advanceCursorAux ranking bad (ranking.length - c) c

/-- `Solution._update_lower_bound` (lines 208-338): repairs the bound and the
two cursor arrays after `arc` is committed.  `visited`/`unvisited` are the
fields of `self` at call time: `add` mutates them *before* calling this, while
`lower_bound_incr_add` passes them unmodified. -/
def updateLowerBound (p : Problem) (visited unvisited : List Nat)
    (arc : Nat × Nat) (lb : ℚ) (csi cso : List Nat) : ℚ × List Nat × List Nat :=
  let u := arc.1
  let v := arc.2
  let si := (p.shortestIn v).getD (csi.getD v 0) 0
  let so := (p.shortestOut u).getD (cso.getD u 0) 0
  let sid := p.dist si v
  let sod := p.dist u so
  let lb := lb - (sid + sod) / 2 + (p.dist u v : ℚ)
  let nso := (p.shortestOut v).getD (cso.getD v 0) 0
  if unvisited.length ≤ 1 ∧ nso = 0 then (lb, csi, cso)
  else
    let lbcso :=
      if nso = u ∨ nso = 0 then
        let lb := lb - (p.dist v nso : ℚ) / 2
        let c' := advanceCursor (p.shortestOut v) (fun x => visited.contains x)
          (cso.getD v 0)
        let nso' := (p.shortestOut v).getD c' 0
        (lb + (p.dist v nso' : ℚ) / 2, cso.set v c')
      else (lb, cso)
    let lb := lbcso.1
    let cso := lbcso.2
    let zsi := (p.shortestIn 0).getD (csi.getD 0 0) 0
    if unvisited.length = 0 ∧ zsi = v then (lb, csi, cso)
    else
      let lbcsi :=
        if zsi = v then
          let lb := lb - (p.dist zsi 0 : ℚ) / 2
          let c' := advanceCursor (p.shortestIn 0) (fun x => visited.contains x)
            (csi.getD 0 0)
          let nzsi := (p.shortestIn 0).getD c' 0
          (lb + (p.dist nzsi 0 : ℚ) / 2, csi.set 0 c')
        else (lb, csi)
      let lb := lbcsi.1
      let csi := lbcsi.2
      unvisited.foldl
        (fun st city =>
          let lb := st.1
          let csi := st.2.1
          let cso := st.2.2
          let stIn :=
            if (p.shortestIn city).getD (csi.getD city 0) 0 = u then
              let isi := (p.shortestIn city).getD (csi.getD city 0) 0
              let lb := lb - (p.dist isi city : ℚ) / 2
              let c' := advanceCursor (p.shortestIn city)
                (fun x => visited.contains x) (csi.getD city 0 + 1)
              let nsi := (p.shortestIn city).getD c' 0
              (lb + (p.dist nsi city : ℚ) / 2, csi.set city c')
            else (lb, csi)
          let lb := stIn.1
          let csi := stIn.2
          let stOut :=
            if (p.shortestOut city).getD (cso.getD city 0) 0 = v then
              let iso := (p.shortestOut city).getD (cso.getD city 0) 0
              let lb := lb - (p.dist city iso : ℚ) / 2
              let c' := advanceCursor (p.shortestOut city)
                (fun x => visited.contains x && x != 0) (cso.getD city 0 + 1)
              let nso := (p.shortestOut city).getD c' 0
              (lb + (p.dist city nso : ℚ) / 2, cso.set city c')
            else (lb, cso)
          (stOut.1, csi, stOut.2))
        (lb, csi, cso)

/-- `Solution.add`: append the destination, remove it from the unvisited set,
accumulate the real edge, repair the bound, and close the tour on the last
city. -/
def addComponent (p : Problem) (s : Solution) (arc : Nat × Nat) : Solution :=
  let v := arc.2
  let visited := s.visited ++ [v]
  let unvisited := s.unvisited.erase v
  let total := s.totalDistance + p.dist arc.1 v
  let r := updateLowerBound p visited unvisited arc s.lowerBound s.csi s.cso
  let total := if unvisited.length = 0 then total + p.dist v 0 else total
  ⟨visited, unvisited, total, r.1, r.2.1, r.2.2⟩

/-- `Solution.lower_bound_incr_add`: `_update_lower_bound` runs on *copies* of
the two cursor arrays (`self.current_shortest_in.copy()`), and only reads
`self` otherwise; the second component is the state the object holds after the
call, assembled field by field from what each Python attribute then contains. -/
def lowerBoundIncrAdd (p : Problem) (s : Solution) (arc : Nat × Nat) :
    ℚ × Solution :=
  let csi := s.csi
  let cso := s.cso
  let r := updateLowerBound p s.visited s.unvisited arc s.lowerBound csi cso
  (r.1 - s.lowerBound,
   ⟨s.visited, s.unvisited, s.totalDistance, s.lowerBound, s.csi, s.cso⟩)

/-- Spec-side definition (spec §3, §8; glossary "assignment relaxation"): the
from-scratch assignment relaxation of a partial tour state.  Each committed arc
(consecutive pair of `order`) counts its real distance; each city whose
outgoing edge is not yet committed (the unvisited cities and the current last
city) contributes half the distance to its cheapest still-available target (an
unvisited city or the anchor 0); each city whose incoming edge is not yet
committed (the unvisited cities and the anchor 0) contributes half the distance
from its cheapest still-available source (an unvisited city or the current last
city).  A city is never its own neighbor (spec §9). -/
def assignmentRelaxation (p : Problem) (s : Solution) : ℚ :=
  let last := s.visited.getLast?.getD 0
  let bestOut := fun c =>
    ((((s.unvisited ++ [0]).filter (fun t => t ≠ c)).map fun t => p.dist c t).min?.getD 0)
  let bestIn := fun c =>
    ((((s.unvisited ++ [last]).filter (fun t => t ≠ c)).map fun t => p.dist t c).min?.getD 0)
  (pathDist p.dist s.visited : ℚ)
    + ((((s.unvisited ++ [last]).map bestOut).sum
        + ((s.unvisited ++ [0]).map bestIn).sum : Int) : ℚ) / 2

/-! ### The earlier revision `src/travelling_salesman.py` -/

/-- The solution state of the earlier top-level revision: no cursor arrays, an
integer bound. -/
structure SolutionV1 where
  visited : List Nat
  unvisited : List Nat
  totalDistance : Int
  lowerBound : Int
deriving DecidableEq, Repr

/-- `Solution.is_feasible` of the earlier revision. -/
def SolutionV1.isFeasible (s : SolutionV1) : Bool := s.unvisited.length == 0

/-- `Solution.objective` of the earlier revision (src/travelling_salesman.py,
lines 102-110): returns `self.total_distance` unconditionally, feasible or
not. -/
def SolutionV1.objective (s : SolutionV1) : Option Int := some s.totalDistance

/-! ### Sparse Fisher-Yates, `src/src/helpers/sparse_fisher_yates.py` -/

/-- The sparse remap table: a Python dict, `p.get(k, k)` defaulting to the
identity.  Assignment overwrites, modelled by consing (newest binding first). -/
def pget (p : List (Nat × Nat)) (k : Nat) : Nat :=
  match p.lookup k with
  | some v => v
  | none => k

/-- `sparse_fisher_yates_iter`, with the stream of `random.randrange(i + 1)`
results supplied as the list `rs` (one entry per `i = n-1, n-2, ..., 0`): yield
`p.get(r, r)`, then if `i ≠ r` set `p[r] = p.get(i, i)`. -/
def sparseFYAux (p : List (Nat × Nat)) : Nat → List Nat → List Nat
  | _, [] => []
  | i, r :: rs =>
    pget p r :: sparseFYAux (if i ≠ r then (r, pget p i) :: p else p) (i - 1) rs

/-- `sparse_fisher_yates_iter(n)` driven by the draw list `rs`. -/
def sparseFY (n : Nat) (rs : List Nat) : List Nat := sparseFYAux [] (n - 1) rs

/-- `validDraws n rs`: `rs` has exactly `n` entries and the entry for index `i`
lies in `[0, i]` — the possible outputs of `random.randrange(i + 1)` for
`i = n-1, ..., 0`. -/
def validDraws : Nat → List Nat → Bool
  | 0, [] => true
  | 0, _ :: _ => false
  | _ + 1, [] => false
  | n + 1, r :: rs => r ≤ n && validDraws n rs

/-- Spec-side definition (spec §4.1): the classic in-place Fisher-Yates shuffle,
emitting its output order.  One step on the array `a` with draw `r`: emit the
value `a[r]`, swap it with the last slot, and continue on the shortened array. -/
def fisherYatesAux (a : List Nat) : List Nat → List Nat
  | [] => []
  | r :: rs =>
    a.getD r 0 ::
      fisherYatesAux ((a.set r (a.getD (a.length - 1) 0)).take (a.length - 1)) rs

/-- The classic Fisher-Yates shuffle of `{0..n-1}` driven by the draw list. -/
def fisherYates (n : Nat) (rs : List Nat) : List Nat :=
  fisherYatesAux (List.range n) rs

/-! ### Ant-colony engine, `src/src/local_solvers/atsp_aco.py` -/

/-- An ant's sampled cycle and its length (`LocalMove3Aco`). -/
structure AcoMove where
  path : List Nat
  distance : Int
deriving DecidableEq, Repr

/-- The pheromone store.  `Atsp3Aco.__init__` builds `[[0.0] * n] * n`: one
shared row object repeated `n` times, so writing any entry writes that column of
*every* row (`aliased`).  The evaporation rebuild is a fresh nested list
comprehension and produces `n` independent rows (`proper`). -/
inductive Pheromones where
  | aliased (n : Nat) (row : List ℚ)
  | proper (rows : List (List ℚ))
deriving DecidableEq, Repr

/-- Reading `pheromones[i][j]`. -/
def Pheromones.read : Pheromones → Nat → Nat → ℚ
  | .aliased _ row, _, j => row.getD j 0
  | .proper rows, i, j => (rows.getD i []).getD j 0

/-- `pheromones[i][j] += δ`: on the aliased store this writes column `j` of
every row. -/
def Pheromones.deposit : Pheromones → Nat → Nat → ℚ → Pheromones
  | .aliased n row, _, j, δ => .aliased n (row.set j (row.getD j 0 + δ))
  | .proper rows, i, j, δ =>
    .proper (rows.set i ((rows.getD i []).set j ((rows.getD i []).getD j 0 + δ)))

/-- The evaporation rebuild
`[[pheromones[i][j] * degradation_factor for j ...] for i ...]`. -/
def Pheromones.evaporate (ph : Pheromones) (n : Nat) (ρ : ℚ) : Pheromones :=
  .proper ((List.range n).map fun i => (List.range n).map fun j => ph.read i j * ρ)

/-- The pheromone matrix as built by `Atsp3Aco.__init__`. -/
def initPheromones (n : Nat) : Pheromones := .aliased n (List.replicate n 0)

/-- The tour/pheromone state an `Atsp3Aco` instance carries. -/
structure AcoState where
  visited : List Nat
  totalDistance : Int
  lowerBound : Int
  pheromones : Pheromones
deriving DecidableEq, Repr

/-- One ant's deposits in `Atsp3Aco.step`: `delta = 10 / distance` on each of
the `dimension - 1` consecutive edges of the path and on the closing edge. -/
def depositAnt (n : Nat) (ph : Pheromones) (m : AcoMove) : Pheromones :=
  let δ : ℚ := 10 / (m.distance : ℚ)
  let ph := (List.range (n - 1)).foldl
    (fun ph i => ph.deposit (m.path.getD i 0) (m.path.getD (i + 1) 0) δ) ph
  ph.deposit (m.path.getD (n - 1) 0) (m.path.getD 0 0) δ

/-- `Atsp3Aco.step` (lines 91-122): replace the tour with `lmoves[0]`, then for
each ant deposit on its cycle and *then rebuild the matrix with the evaporation
factor — inside the per-ant loop*. -/
def stepAco (n : Nat) (ρ : ℚ) (st : AcoState) (lmoves : List AcoMove) : AcoState :=
  let first := lmoves.headD ⟨[], 0⟩
  let ph := lmoves.foldl (fun ph m => (depositAnt n ph m).evaporate n ρ) st.pheromones
  ⟨first.path, first.distance, first.distance, ph⟩

/-- Spec-side definition (claim C6's reading of spec §4.5): deposit every
selected ant's cycle, then multiply the entire matrix by the evaporation factor
exactly once after all deposits, and replace the tour with the single best
(minimum-length) sampled ant. -/
def specStepAco (n : Nat) (ρ : ℚ) (st : AcoState) (lmoves : List AcoMove) :
    AcoState :=
  let ph0 := Pheromones.proper
    ((List.range n).map fun i => (List.range n).map fun j => st.pheromones.read i j)
  let ph := (lmoves.foldl (depositAnt n) ph0).evaporate n ρ
  let best := lmoves.foldl
    (fun b m => if m.distance < b.distance then m else b) (lmoves.headD ⟨[], 0⟩)
  ⟨best.path, best.distance, best.distance, ph⟩

/-! ### Concrete instances used by counterexamples and witnesses -/

/-- The spec §8 concrete 4-city scenario matrix. -/
def p4 : Problem := ⟨4, [[0, 1, 2, 3], [1, 0, 4, 5], [2, 4, 0, 6], [3, 5, 6, 0]]⟩

/-- A 4-city matrix without a zero diagonal, on which the first `add` advances a
cursor (city 2's best incoming source is the anchor 0). -/
def pCur : Problem := ⟨4, [[9, 1, 1, 1], [2, 9, 5, 5], [3, 6, 9, 5], [4, 6, 7, 9]]⟩

/-- A distance function for concrete witnesses. -/
def dW : Dist := fun a b => (a : Int) * 5 + (b : Int) * 3 + (if a < b then 1 else 2)

/-- A distance function separating the two sides of the shift-insert delta
identity for a forward move. -/
def dSI : Dist := fun a b => if a = 3 ∧ b = 4 then 100 else 1

lemma mem_cutTriples {n i j k : Nat} :
    (i, j, k) ∈ cutTriples n ↔ i + 2 ≤ j ∧ j + 2 ≤ k ∧ k + 2 ≤ n := by
  simp only [cutTriples, List.mem_flatMap, List.mem_map, List.mem_range, List.mem_range',
    Prod.mk.injEq]
  constructor
  · rintro ⟨a, ha, b, ⟨t, ht, rfl⟩, c, ⟨u, hu, rfl⟩, rfl, rfl, rfl⟩
    omega
  · rintro ⟨h1, h2, h3⟩
    exact ⟨i, by omega, j, ⟨j - (i + 2), by omega, by omega⟩,
      k, ⟨k - (j + 2), by omega, by omega⟩, rfl, rfl, rfl⟩

lemma cutTriples_nodup (n : Nat) : (cutTriples n).Nodup := by
  unfold cutTriples
  rw [List.nodup_flatMap]
  refine ⟨fun i _ => ?_, ?_⟩
  · rw [List.nodup_flatMap]
    refine ⟨fun j _ => List.Nodup.map (fun a b h => by simpa using h)
      (List.nodup_range' _ _), ?_⟩
    · exact List.Pairwise.imp
        (fun hne x hx hx' => by
          simp only [List.mem_map] at hx hx'
          obtain ⟨k1, _, rfl⟩ := hx
          obtain ⟨k2, _, hk⟩ := hx'
          simp only [Prod.mk.injEq] at hk
          exact hne hk.2.1.symm)
        (List.nodup_range' _ _)
  · exact List.Pairwise.imp
      (fun hne x hx hx' => by
        simp only [List.mem_flatMap, List.mem_map] at hx hx'
        obtain ⟨j1, _, k1, _, rfl⟩ := hx
        obtain ⟨j2, _, k2, _, hk⟩ := hx'
        simp only [Prod.mk.injEq] at hk
        exact hne hk.1.symm)
      (List.nodup_range _)


/-! ### Claim theorems: move space, objective, copy, bound recomputation -/

/-- C7 (amended): `Atsp3Opt.local_moves` enumerates exactly one move for every
cut triple `i < j < k` with `j ≥ i + 2`, `k ≥ j + 2` and `k ≤ dimension - 2`
(the last index, whose successor edge wraps to the anchor, is never a cut
point), and no other moves. -/
theorem threeOpt_moveSpace_exact (n i j k : Nat) :
    ((i, j, k) ∈ cutTriples n ↔ i + 2 ≤ j ∧ j + 2 ≤ k ∧ k + 2 ≤ n) ∧
    (cutTriples n).Nodup :=
  ⟨mem_cutTriples, cutTriples_nodup n⟩

/-- C7 (counterexample to the claim as stated): at `dimension = 6` the triple
`(0, 2, 5)` has the required separations and lies in the index range `[0, 5]`,
yet it is not enumerated (`k` stops at `dimension - 2`). -/
theorem threeOpt_moveSpace_claim_false :
    0 + 2 ≤ 2 ∧ 2 + 2 ≤ 5 ∧ 5 ≤ 6 - 1 ∧ (0, 2, 5) ∉ cutTriples 6 := by decide

/-- C8 (code bug in the earlier revision): in `src/src/travelling_salesman.py`,
`objective()` returns `None` exactly on infeasible states; but the revision
`src/travelling_salesman.py` returns `total_distance` unconditionally, so on
the infeasible anchor-only state over four cities it returns `0` instead of the
`None` its own docstring and the spec require. -/
theorem objective_infeasible_bug :
    (∀ s : Solution, s.objective = none ↔ s.isFeasible = false) ∧
    SolutionV1.isFeasible ⟨[0], [1, 2, 3], 0, 0⟩ = false ∧
    SolutionV1.objective ⟨[0], [1, 2, 3], 0, 0⟩ = some 0 := by
  refine ⟨fun s => ?_, by decide, by decide⟩
  unfold Solution.objective
  cases h : s.isFeasible <;> simp [h]

/-- C1 (code bug): on the spec §8 4-city instance, the add sequence
`(0,1), (1,2), (2,3)` produces a feasible tour, but already after the first
`add` the incrementally maintained bound is `1` while the from-scratch
assignment relaxation restricted to the remaining set is `9`: the precomputed
neighbor rankings include each city itself, so the zero diagonal makes every
still-open half-edge contribute `0` instead of the distance to a real
neighbor. -/
theorem incrementalBound_ne_assignmentRelaxation :
    (addComponent p4 (addComponent p4 (addComponent p4 (emptySolution p4) (0, 1))
        (1, 2)) (2, 3)).unvisited = [] ∧
    (addComponent p4 (emptySolution p4) (0, 1)).lowerBound = 1 ∧
    assignmentRelaxation p4 (addComponent p4 (emptySolution p4) (0, 1)) = 9 ∧
    (1 : ℚ) ≠ 9 := by
  refine ⟨by decide, ?_, ?_, ?_⟩ <;> with_unfolding_all decide

/-- C9 (counterexample to the claim as stated): after one `add` on a matrix
without a zero diagonal the original's cursor arrays have advanced, but
`copy()` rebuilds the solution through `__init__`, which resets both cursor
arrays to zeros — the copy does not hold the same cursor values as the
original. -/
theorem copy_cursors_claim_false :
    (Solution.copy pCur (addComponent pCur (emptySolution pCur) (0, 1))).csi
      ≠ (addComponent pCur (emptySolution pCur) (0, 1)).csi := by decide

/-- C9 (amended): `copy()` shares the problem reference and copies the order,
the unvisited set, the total distance and the bound by value, but reinitializes
both per-city cursor arrays to all-zero arrays instead of copying their
values. -/
theorem copy_fields_exact (p : Problem) (s : Solution) :
    (Solution.copy p s).visited = s.visited ∧
    (Solution.copy p s).unvisited = s.unvisited ∧
    (Solution.copy p s).totalDistance = s.totalDistance ∧
    (Solution.copy p s).lowerBound = s.lowerBound ∧
    (Solution.copy p s).csi = List.replicate p.dimension 0 ∧
    (Solution.copy p s).cso = List.replicate p.dimension 0 :=
  ⟨rfl, rfl, rfl, rfl, rfl, rfl⟩

/-- C3 (counterexample to the claim as stated): the valid shift-insert move
`(city index 1, destination 3)` on the 5-city tour `[0,1,2,3,4]` — a forward
move, `j > i` — violates the delta identity: after `pop(1)` the destination
city has shifted down one slot, so `insert(3, city)` places the city *after*
`order[3]`, not before it as the six-term delta assumes. -/
theorem shiftInsert_delta_claim_false :
    isMoveValidSI 5 1 3 = true ∧
    tourDistance dSI [0, 1, 2, 3, 4] -
        objectiveIncrSI dSI 5 [0, 1, 2, 3, 4] 104 1 3
      ≠ tourDistance dSI (stepSI dSI 5 [0, 1, 2, 3, 4] 104 1 3).1 := by
  refine ⟨by decide, by decide⟩

/-- C6 (counterexample to the claim as stated): with two sorted ants on a
2-city instance, `step` does not produce the matrix obtained by depositing all
selected ants and evaporating exactly once: the aliased rows of the initial
matrix smear the first ant's deposits over whole columns (entry `(0,0)` ends at
`5/2` though no ant uses a self-loop edge), and the evaporation rebuild runs
once per ant rather than once. -/
theorem acoStep_claim_false :
    (stepAco 2 (1 / 2) ⟨[0, 1], 5, 5, initPheromones 2⟩
        [⟨[0, 1], 1⟩, ⟨[0, 1], 2⟩]).pheromones.read 0 0 = 5 / 2 ∧
    (specStepAco 2 (1 / 2) ⟨[0, 1], 5, 5, initPheromones 2⟩
        [⟨[0, 1], 1⟩, ⟨[0, 1], 2⟩]).pheromones.read 0 0 = 0 ∧
    ((5 : ℚ) / 2) ≠ 0 := by
  refine ⟨?_, ?_, ?_⟩ <;> with_unfolding_all decide

/-! ### List boundary and segment lemmas -/

lemma getElemD_eq (l : List Nat) (i : Nat) (h : i < l.length) : l.getD i 0 = l[i] := by
  rw [List.getD_eq_getElem?_getD, List.getElem?_eq_getElem h, Option.getD_some]

lemma headD_append_left (A X : List Nat) (h : A ≠ []) : (A ++ X).headD 0 = A.headD 0 := by
  cases A with
  | nil => exact absurd rfl h
  | cons a t => rfl

lemma getLastD_append_right (X D : List Nat) (h : D ≠ []) :
    (X ++ D).getLast?.getD 0 = D.getLast?.getD 0 := by
  rw [List.getLast?_append]
  cases hD : D.getLast? with
  | none => exact absurd (List.getLast?_eq_none_iff.mp hD) h
  | some x => rfl

lemma headD_drop (l : List Nat) (a : Nat) :
    (l.drop a).headD 0 = l.getD a 0 := by
  rw [List.headD_eq_head?, List.head?_eq_getElem?, List.getElem?_drop,
    List.getD_eq_getElem?_getD, Nat.add_zero]

lemma headD_drop_take (l : List Nat) (a t : Nat) (ht : 0 < t) :
    ((l.drop a).take t).headD 0 = l.getD a 0 := by
  rw [List.headD_eq_head?, List.head?_eq_getElem?, List.getElem?_take, if_pos ht,
    List.getElem?_drop, List.getD_eq_getElem?_getD, Nat.add_zero]

lemma getLastD_take (l : List Nat) (i : Nat) (h : i < l.length) :
    (l.take (i + 1)).getLast?.getD 0 = l.getD i 0 := by
  have hlen : (l.take (i + 1)).length = i + 1 := by
    rw [List.length_take]; omega
  rw [List.getLast?_eq_getElem?, hlen, Nat.add_sub_cancel, List.getElem?_take,
    if_pos (Nat.lt_succ_self i), List.getD_eq_getElem?_getD]

lemma getLastD_drop_take (l : List Nat) (a t : Nat) (ht : 0 < t)
    (hat : a + t ≤ l.length) :
    ((l.drop a).take t).getLast?.getD 0 = l.getD (a + t - 1) 0 := by
  have hlen : ((l.drop a).take t).length = t := by
    rw [List.length_take, List.length_drop]; omega
  rw [List.getLast?_eq_getElem?, hlen, List.getElem?_take, if_pos (by omega),
    List.getElem?_drop, List.getD_eq_getElem?_getD]
  have e : a + (t - 1) = a + t - 1 := by omega
  rw [e]

lemma getLastD_drop (l : List Nat) (a : Nat) (h : a < l.length) :
    (l.drop a).getLast?.getD 0 = l.getD (l.length - 1) 0 := by
  rw [List.getLast?_eq_getElem?, List.length_drop, List.getElem?_drop,
    List.getD_eq_getElem?_getD]
  have e : a + (l.length - a - 1) = l.length - 1 := by omega
  rw [e]

lemma headD_take (l : List Nat) (t : Nat) (ht : 0 < t) :
    (l.take t).headD 0 = l.headD 0 := by
  cases l with
  | nil => simp
  | cons a u =>
    cases t with
    | zero => omega
    | succ t => rfl

lemma take_one_drop (l : List Nat) (j : Nat) (h : j < l.length) :
    (l.drop j).take 1 = [l.getD j 0] := by
  rw [List.drop_eq_getElem_cons h, getElemD_eq l j h]
  rfl

lemma pathDist_append_aux (d : Dist) (ys : List Nat) (hy : ys ≠ []) :
    ∀ xs : List Nat, xs ≠ [] →
      pathDist d (xs ++ ys)
        = pathDist d xs + d (xs.getLast?.getD 0) (ys.headD 0) + pathDist d ys := by
  intro xs
  induction xs with
  | nil => intro h; exact absurd rfl h
  | cons a t ih =>
    intro _
    cases t with
    | nil =>
      cases ys with
      | nil => exact absurd rfl hy
      | cons b u => simp [pathDist]
    | cons a' t' =>
      have h := ih (by simp)
      simp only [List.cons_append, pathDist, List.append_eq] at h ⊢
      rw [h, List.getLast?_cons_cons]
      ring

lemma pathDist_append (d : Dist) (xs ys : List Nat) (hx : xs ≠ []) (hy : ys ≠ []) :
    pathDist d (xs ++ ys)
      = pathDist d xs + d (xs.getLast?.getD 0) (ys.headD 0) + pathDist d ys :=
  pathDist_append_aux d ys hy xs hx

lemma tourDistance_fourSeg (d : Dist) (A B C D : List Nat)
    (hA : A ≠ []) (hB : B ≠ []) (hC : C ≠ []) (hD : D ≠ []) :
    tourDistance d (A ++ (C ++ (B ++ D)))
      = tourDistance d (A ++ (B ++ (C ++ D)))
        - (d (A.getLast?.getD 0) (B.headD 0) + d (B.getLast?.getD 0) (C.headD 0)
            + d (C.getLast?.getD 0) (D.headD 0))
        + (d (A.getLast?.getD 0) (C.headD 0) + d (C.getLast?.getD 0) (B.headD 0)
            + d (B.getLast?.getD 0) (D.headD 0)) := by
  have hBD : (B ++ D : List Nat) ≠ [] := by cases B <;> simp_all
  have hCD : (C ++ D : List Nat) ≠ [] := by cases C <;> simp_all
  have hCBD : (C ++ (B ++ D) : List Nat) ≠ [] := by cases C <;> simp_all
  have hBCD : (B ++ (C ++ D) : List Nat) ≠ [] := by cases B <;> simp_all
  unfold tourDistance
  rw [pathDist_append d A (C ++ (B ++ D)) hA hCBD,
    pathDist_append d C (B ++ D) hC hBD,
    pathDist_append d B D hB hD,
    pathDist_append d A (B ++ (C ++ D)) hA hBCD,
    pathDist_append d B (C ++ D) hB hCD,
    pathDist_append d C D hC hD,
    headD_append_left C (B ++ D) hC,
    headD_append_left B (C ++ D) hB,
    headD_append_left B D hB,
    headD_append_left C D hC,
    headD_append_left A (C ++ (B ++ D)) hA,
    headD_append_left A (B ++ (C ++ D)) hA,
    getLastD_append_right A (C ++ (B ++ D)) hCBD,
    getLastD_append_right C (B ++ D) hBD,
    getLastD_append_right B D hD,
    getLastD_append_right A (B ++ (C ++ D)) hBCD,
    getLastD_append_right B (C ++ D) hCD,
    getLastD_append_right C D hD]
  ring

lemma tour_decomp (vc : List Nat) (i j k : Nat)
    (hij : i + 2 ≤ j) (hjk : j + 2 ≤ k) (hkn : k + 2 ≤ vc.length) :
    vc = vc.take (i + 1)
        ++ ((vc.drop (i + 1)).take (j - i)
          ++ ((vc.drop (j + 1)).take (k - j) ++ vc.drop (k + 1))) := by
  have h1 : vc.take (j + 1) = vc.take (i + 1) ++ (vc.drop (i + 1)).take (j - i) := by
    have e : j + 1 = (i + 1) + (j - i) := by omega
    rw [e, List.take_add]
  have h2 : vc.take (k + 1) = vc.take (j + 1) ++ (vc.drop (j + 1)).take (k - j) := by
    have e : k + 1 = (j + 1) + (k - j) := by omega
    rw [e, List.take_add]
  conv_lhs => rw [← List.take_append_drop (k + 1) vc]
  rw [h2, h1, List.append_assoc, List.append_assoc]

lemma step3Opt_eq_segments (vc : List Nat) (hnd : vc.Nodup) (i j k : Nat)
    (hij : i + 2 ≤ j) (hjk : j + 2 ≤ k) (hkn : k + 2 ≤ vc.length) :
    step3Opt vc (moveAt vc i j k)
      = vc.take (i + 1)
        ++ ((vc.drop (j + 1)).take (k - j)
          ++ ((vc.drop (i + 1)).take (j - i) ++ vc.drop (k + 1))) := by
  have hi : i < vc.length := by omega
  have hi1 : i + 1 < vc.length := by omega
  have hj : j < vc.length := by omega
  have hj1 : j + 1 < vc.length := by omega
  have hk : k < vc.length := by omega
  have hk1 : k + 1 < vc.length := by omega
  simp only [step3Opt, moveAt]
  rw [getElemD_eq vc i hi, getElemD_eq vc (i + 1) hi1, getElemD_eq vc j hj,
    getElemD_eq vc (j + 1) hj1, getElemD_eq vc k hk, getElemD_eq vc (k + 1) hk1,
    List.indexOf_getElem hnd i hi, List.indexOf_getElem hnd (i + 1) hi1,
    List.indexOf_getElem hnd j hj, List.indexOf_getElem hnd (j + 1) hj1,
    List.indexOf_getElem hnd k hk, List.indexOf_getElem hnd (k + 1) hk1]
  have e1 : k + 1 - (j + 1) = k - j := by omega
  have e2 : j + 1 - (i + 1) = j - i := by omega
  rw [e1, e2, List.append_assoc, List.append_assoc]

/-- C2: for every enumerated 3-opt move with cut points `i < j < k` on a
complete tour, the exact tour length before `step` minus
`objective_incr_local(move)` equals the exact tour length of the reconnected
order `[0..i] + [j+1..k] + [i+1..j] + [k+1..end]` produced by `step`. -/
theorem threeOpt_step_exact (d : Dist) (vc : List Nat) (hnd : vc.Nodup)
    (i j k : Nat) (hij : i + 2 ≤ j) (hjk : j + 2 ≤ k) (hkn : k + 2 ≤ vc.length) :
    tourDistance d vc - objectiveIncr3Opt d (moveAt vc i j k)
      = tourDistance d (step3Opt vc (moveAt vc i j k)) := by
  have hA : vc.take (i + 1) ≠ [] :=
    List.length_pos.mp (by rw [List.length_take]; omega)
  have hB : (vc.drop (i + 1)).take (j - i) ≠ [] :=
    List.length_pos.mp (by rw [List.length_take, List.length_drop]; omega)
  have hC : (vc.drop (j + 1)).take (k - j) ≠ [] :=
    List.length_pos.mp (by rw [List.length_take, List.length_drop]; omega)
  have hD : vc.drop (k + 1) ≠ [] :=
    List.length_pos.mp (by rw [List.length_drop]; omega)
  have key := tourDistance_fourSeg d (vc.take (i + 1)) ((vc.drop (i + 1)).take (j - i))
    ((vc.drop (j + 1)).take (k - j)) (vc.drop (k + 1)) hA hB hC hD
  rw [step3Opt_eq_segments vc hnd i j k hij hjk hkn, key,
    ← tour_decomp vc i j k hij hjk hkn]
  have bx1 : (vc.take (i + 1)).getLast?.getD 0 = vc.getD i 0 :=
    getLastD_take vc i (by omega)
  have bx2 : ((vc.drop (i + 1)).take (j - i)).headD 0 = vc.getD (i + 1) 0 :=
    headD_drop_take vc (i + 1) (j - i) (by omega)
  have by1 : ((vc.drop (i + 1)).take (j - i)).getLast?.getD 0 = vc.getD j 0 := by
    have h := getLastD_drop_take vc (i + 1) (j - i) (by omega) (by omega)
    rwa [show (i + 1) + (j - i) - 1 = j by omega] at h
  have by2 : ((vc.drop (j + 1)).take (k - j)).headD 0 = vc.getD (j + 1) 0 :=
    headD_drop_take vc (j + 1) (k - j) (by omega)
  have bz1 : ((vc.drop (j + 1)).take (k - j)).getLast?.getD 0 = vc.getD k 0 := by
    have h := getLastD_drop_take vc (j + 1) (k - j) (by omega) (by omega)
    rwa [show (j + 1) + (k - j) - 1 = k by omega] at h
  have bz2 : (vc.drop (k + 1)).headD 0 = vc.getD (k + 1) 0 := headD_drop vc (k + 1)
  rw [bx1, bx2, by1, by2, bz1, bz2]
  simp only [objectiveIncr3Opt, moveAt]
  ring

/-- Witness for C2 on a concrete 6-city tour and the cut triple `(0, 2, 4)`. -/
theorem threeOpt_step_exact_witness :
    tourDistance dW [0, 1, 2, 3, 4, 5]
        - objectiveIncr3Opt dW (moveAt [0, 1, 2, 3, 4, 5] 0 2 4)
      = tourDistance dW (step3Opt [0, 1, 2, 3, 4, 5] (moveAt [0, 1, 2, 3, 4, 5] 0 2 4)) :=
  threeOpt_step_exact dW [0, 1, 2, 3, 4, 5] (by decide) 0 2 4
    (by decide) (by decide) (by decide)

/-- C10: applying any enumerated 3-opt move, or any shift-insert move with
in-range indices, to a complete tour yields a permutation of the same cities
(hence of the same length). -/
theorem step_preserves_permutation :
    (∀ (vc : List Nat) (i j k : Nat), vc.Nodup →
        i + 2 ≤ j → j + 2 ≤ k → k + 2 ≤ vc.length →
        (step3Opt vc (moveAt vc i j k)).Perm vc) ∧
    (∀ (d : Dist) (n : Nat) (vc : List Nat) (t : Int) (i j : Nat),
        vc.length = n → i < n → j < n →
        ((stepSI d n vc t i j).1).Perm vc) := by
  constructor
  · intro vc i j k hnd hij hjk hkn
    rw [step3Opt_eq_segments vc hnd i j k hij hjk hkn]
    conv_rhs => rw [tour_decomp vc i j k hij hjk hkn]
    refine List.Perm.append_left _ ?_
    rw [← List.append_assoc, ← List.append_assoc]
    exact List.Perm.append_right _ List.perm_append_comm
  · intro d n vc t i j hlen hi hj
    have hi' : i < vc.length := by omega
    simp only [stepSI]
    rw [getElemD_eq vc i hi']
    have h1 : ((vc.eraseIdx i).insertIdx j vc[i]).Perm (vc[i] :: vc.eraseIdx i) :=
      List.perm_insertIdx _ _ (by rw [List.length_eraseIdx, if_pos hi']; omega)
    have h2 : (vc[i] :: vc.eraseIdx i).Perm vc := by
      have e := @List.erase_getElem Nat _ vc i hi'
      have g : vc.Perm (vc[i] :: vc.erase vc[i]) :=
        List.perm_cons_erase (List.getElem_mem hi')
      exact ((e.symm.cons vc[i]).trans g.symm)
    exact h1.trans h2

/-- Witness for C10: a 6-city 3-opt application and a 5-city shift-insert
application, both permutations of the original order. -/
theorem step_preserves_permutation_witness :
    (step3Opt [0, 1, 2, 3, 4, 5] (moveAt [0, 1, 2, 3, 4, 5] 0 2 4)).Perm
        [0, 1, 2, 3, 4, 5] ∧
    ((stepSI dW 5 [0, 1, 2, 3, 4] 0 1 3).1).Perm [0, 1, 2, 3, 4] :=
  ⟨step_preserves_permutation.1 [0, 1, 2, 3, 4, 5] 0 2 4 (by decide)
      (by decide) (by decide) (by decide),
   step_preserves_permutation.2 dW 5 [0, 1, 2, 3, 4] 0 1 3 rfl
      (by decide) (by decide)⟩

lemma getLastD_cons (x : Nat) (F : List Nat) (h : F ≠ []) :
    (x :: F).getLast?.getD 0 = F.getLast?.getD 0 := by
  cases F with
  | nil => exact absurd rfl h
  | cons b u => rw [List.getLast?_cons_cons]

lemma pathDist_cons (d : Dist) (x : Nat) (L : List Nat) (h : L ≠ []) :
    pathDist d (x :: L) = d x (L.headD 0) + pathDist d L := by
  cases L with
  | nil => exact absurd rfl h
  | cons b u => rfl

lemma headD_of_ne_nil (G : List Nat) (x : Nat) (h : G ≠ []) :
    G.headD x = G.headD 0 := by
  cases G with
  | nil => exact absurd rfl h
  | cons g u => rfl

lemma getD_zero_eq_headD (l : List Nat) : l.getD 0 0 = l.headD 0 := by
  cases l <;> rfl

lemma insertIdx_append_length (A Y : List Nat) (x : Nat) :
    (A ++ Y).insertIdx A.length x = A ++ (x :: Y) := by
  induction A with
  | nil => rfl
  | cons a t ih =>
    simp only [List.cons_append, List.length_cons, List.insertIdx_succ_cons, ih]

/-- The six-edge exchange performed by a backward shift-insert whose destination
is not the front: relocating `ct` from between `F.last` and the successor
(`G.head`, or the tour head when `ct` was last) to between `A.last` and `dst`. -/
lemma tourDistance_shiftBack (d : Dist) (A F G : List Nat) (dst ct : Nat)
    (hA : A ≠ []) (hF : F ≠ []) :
    tourDistance d (A ++ (ct :: (dst :: (F ++ G))))
      = tourDistance d (A ++ (dst :: (F ++ (ct :: G))))
        - (d (F.getLast?.getD 0) ct + d ct (G.headD (A.headD 0))
            + d (A.getLast?.getD 0) dst)
        + (d (F.getLast?.getD 0) (G.headD (A.headD 0)) + d ct dst
            + d (A.getLast?.getD 0) ct) := by
  cases G with
  | nil =>
    unfold tourDistance
    rw [List.append_nil,
      pathDist_append d A (ct :: (dst :: F)) hA (by simp),
      pathDist_cons d ct (dst :: F) (by simp),
      pathDist_cons d dst F hF,
      pathDist_append d A (dst :: (F ++ [ct])) hA (by simp),
      pathDist_cons d dst (F ++ [ct]) (by simp),
      pathDist_append d F [ct] hF (by simp),
      headD_append_left A (ct :: (dst :: F)) hA,
      headD_append_left A (dst :: (F ++ [ct])) hA,
      headD_append_left F [ct] hF,
      getLastD_append_right A (ct :: (dst :: F)) (by simp),
      getLastD_append_right A (dst :: (F ++ [ct])) (by simp),
      getLastD_cons ct (dst :: F) (by simp),
      getLastD_cons dst F hF,
      getLastD_cons dst (F ++ [ct]) (by simp),
      getLastD_append_right F [ct] (by simp)]
    simp only [List.headD_cons, List.headD_nil, List.getLast?_singleton,
      Option.getD_some, pathDist]
    ring
  | cons g G' =>
    unfold tourDistance
    rw [pathDist_append d A (ct :: (dst :: (F ++ g :: G'))) hA (by simp),
      pathDist_cons d ct (dst :: (F ++ g :: G')) (by simp),
      pathDist_cons d dst (F ++ g :: G') (by simp),
      pathDist_append d F (g :: G') hF (by simp),
      pathDist_append d A (dst :: (F ++ (ct :: g :: G'))) hA (by simp),
      pathDist_cons d dst (F ++ (ct :: g :: G')) (by simp),
      pathDist_append d F (ct :: g :: G') hF (by simp),
      pathDist_cons d ct (g :: G') (by simp),
      headD_append_left A _ hA, headD_append_left A _ hA,
      headD_append_left F (g :: G') hF,
      headD_append_left F (ct :: g :: G') hF,
      getLastD_append_right A _ (by simp),
      getLastD_append_right A _ (by simp),
      getLastD_cons ct (dst :: (F ++ g :: G')) (by simp),
      getLastD_cons dst (F ++ g :: G') (by simp),
      getLastD_cons dst (F ++ (ct :: g :: G')) (by simp),
      getLastD_append_right F (g :: G') (by simp),
      getLastD_append_right F (ct :: g :: G') (by simp),
      getLastD_cons ct (g :: G') (by simp)]
    simp only [List.headD_cons]
    ring

/-- The six-edge exchange performed by a shift-insert to the front (`j = 0`,
`i < n - 1`): relocating `ct` from between `pv` and `G.head` to the front of
the tour, before `B.head` and after the old last city `G.last`. -/
lemma tourDistance_shiftFront (d : Dist) (B G : List Nat) (pv ct : Nat)
    (hB : B ≠ []) (hG : G ≠ []) :
    tourDistance d (ct :: (B ++ (pv :: G)))
      = tourDistance d (B ++ (pv :: (ct :: G)))
        - (d pv ct + d ct (G.headD 0) + d (G.getLast?.getD 0) (B.headD 0))
        + (d pv (G.headD 0) + d ct (B.headD 0) + d (G.getLast?.getD 0) ct) := by
  unfold tourDistance
  rw [pathDist_cons d ct (B ++ (pv :: G)) (by simp),
    pathDist_append d B (pv :: G) hB (by simp),
    pathDist_cons d pv G hG,
    pathDist_append d B (pv :: (ct :: G)) hB (by simp),
    pathDist_cons d pv (ct :: G) (by simp),
    pathDist_cons d ct G hG,
    headD_append_left B (pv :: G) hB,
    headD_append_left B (pv :: (ct :: G)) hB,
    getLastD_append_right B (pv :: (ct :: G)) (by simp),
    getLastD_cons pv (ct :: G) (by simp),
    getLastD_cons ct G hG,
    getLastD_cons ct (B ++ (pv :: G)) (by simp),
    getLastD_append_right B (pv :: G) (by simp),
    getLastD_cons pv G hG]
  simp only [List.headD_cons]
  ring

lemma drop_eq_getD_cons (l : List Nat) (a : Nat) (h : a < l.length) :
    l.drop a = l.getD a 0 :: l.drop (a + 1) := by
  rw [List.drop_eq_getElem_cons h, getElemD_eq l a h]

/-- C3 (amended): for every valid backward shift-insert move — destination
index `j` strictly below the city index `i` (validity forces `j ≤ i - 3`),
excluding the wrap case `j = 0` with `i = n - 1` — the exact tour length before
`step` minus `objective_incr_local(move)` equals the exact tour length of the
order produced by `step`.  Forward moves (`j > i`) and the wrap case violate
the identity: after `pop(i)` every position from `i` on shifts down one slot,
so `insert(j, city)` lands after the recorded destination city, not before
it. -/
theorem shiftInsert_step_exact_backward (d : Dist) (n : Nat) (vc : List Nat)
    (t : Int) (i j : Nat) (hlen : vc.length = n) (hi : i < n) (hj3 : j + 3 ≤ i)
    (hj0 : j = 0 → i + 2 ≤ n) :
    tourDistance d vc - objectiveIncrSI d n vc t i j
      = tourDistance d (stepSI d n vc t i j).1 := by
  subst hlen
  obtain ⟨m, rfl⟩ : ∃ m, i = m + 1 := ⟨i - 1, by omega⟩
  rcases Nat.eq_zero_or_pos j with hj | hjpos
  · -- destination 0, city not at the last position
    subst hj
    have hin : m + 3 ≤ vc.length := by have := hj0 rfl; omega
    have hB : vc.take m ≠ [] :=
      List.length_pos.mp (by rw [List.length_take]; omega)
    have hG : vc.drop (m + 2) ≠ [] :=
      List.length_pos.mp (by rw [List.length_drop]; omega)
    have hdec : vc = vc.take m
        ++ (vc.getD m 0 :: (vc.getD (m + 1) 0 :: vc.drop (m + 2))) := by
      conv_lhs => rw [← List.take_append_drop m vc]
      congr 1
      rw [drop_eq_getD_cons vc m (by omega)]
      congr 1
      rw [drop_eq_getD_cons vc (m + 1) (by omega)]
    have hstep : (stepSI d vc.length vc t (m + 1) 0).1
        = vc.getD (m + 1) 0 :: (vc.take m ++ (vc.getD m 0 :: vc.drop (m + 2))) := by
      simp only [stepSI]
      rw [List.eraseIdx_eq_take_drop_succ, List.insertIdx_zero]
      congr 1
      rw [show m + 1 = m + 1 from rfl, List.take_add, take_one_drop vc m (by omega),
        List.append_assoc]
      rfl
    rw [hstep, tourDistance_shiftFront d (vc.take m) (vc.drop (m + 2))
        (vc.getD m 0) (vc.getD (m + 1) 0) hB hG, ← hdec]
    have en1 : (m + 1 + vc.length - 1) % vc.length = m := by
      rw [show m + 1 + vc.length - 1 = vc.length + m by omega, Nat.add_mod_left,
        Nat.mod_eq_of_lt (by omega)]
    have en2 : (m + 1 + 1) % vc.length = m + 2 := Nat.mod_eq_of_lt (by omega)
    have en3 : (0 + vc.length - 1) % vc.length = vc.length - 1 := by
      rw [show 0 + vc.length - 1 = vc.length - 1 by omega,
        Nat.mod_eq_of_lt (by omega)]
    have eB : (vc.take m).headD 0 = vc.getD 0 0 := by
      rw [headD_take vc m (by omega), getD_zero_eq_headD]
    have eG : (vc.drop (m + 2)).headD 0 = vc.getD (m + 2) 0 := headD_drop vc (m + 2)
    have eGL : (vc.drop (m + 2)).getLast?.getD 0 = vc.getD (vc.length - 1) 0 :=
      getLastD_drop vc (m + 2) (by omega)
    simp only [objectiveIncrSI, calcLocalMoveDistance, en1, en2, en3]
    rw [eB, eG, eGL]
    ring
  · -- destination at least 1: the general backward relocation
    obtain ⟨q, rfl⟩ : ∃ q, j = q + 1 := ⟨j - 1, by omega⟩
    have hA : vc.take (q + 1) ≠ [] :=
      List.length_pos.mp (by rw [List.length_take]; omega)
    have hF : (vc.drop (q + 2)).take (m - q - 1) ≠ [] :=
      List.length_pos.mp (by rw [List.length_take, List.length_drop]; omega)
    have hdec : vc = vc.take (q + 1)
        ++ (vc.getD (q + 1) 0 :: ((vc.drop (q + 2)).take (m - q - 1)
          ++ (vc.getD (m + 1) 0 :: vc.drop (m + 2)))) := by
      conv_lhs => rw [← List.take_append_drop (q + 1) vc]
      congr 1
      rw [drop_eq_getD_cons vc (q + 1) (by omega)]
      congr 1
      conv_lhs => rw [← List.take_append_drop (m - q - 1) (vc.drop (q + 2))]
      congr 1
      rw [List.drop_drop, show (q + 2) + (m - q - 1) = m + 1 by omega,
        drop_eq_getD_cons vc (m + 1) (by omega)]
    have hstep : (stepSI d vc.length vc t (m + 1) (q + 1)).1
        = vc.take (q + 1) ++ (vc.getD (m + 1) 0 :: (vc.getD (q + 1) 0
            :: ((vc.drop (q + 2)).take (m - q - 1) ++ vc.drop (m + 2)))) := by
      simp only [stepSI]
      have he : vc.eraseIdx (m + 1)
          = vc.take (q + 1) ++ (vc.getD (q + 1) 0
              :: ((vc.drop (q + 2)).take (m - q - 1) ++ vc.drop (m + 2))) := by
        rw [List.eraseIdx_eq_take_drop_succ, show m + 1 + 1 = m + 2 from rfl]
        conv_lhs => rw [show m + 1 = (q + 1) + (m - q) by omega, List.take_add]
        rw [List.append_assoc]
        congr 1
        rw [drop_eq_getD_cons vc (q + 1) (by omega),
          show m - q = (m - q - 1) + 1 by omega, List.take_succ_cons,
          show q + 1 + 1 = q + 2 from rfl]
        rfl
      have hAlen : (vc.take (q + 1)).length = q + 1 := by
        rw [List.length_take]; omega
      rw [he]
      have happ := insertIdx_append_length (vc.take (q + 1))
        (vc.getD (q + 1) 0 :: ((vc.drop (q + 2)).take (m - q - 1) ++ vc.drop (m + 2)))
        (vc.getD (m + 1) 0)
      rw [hAlen] at happ
      exact happ
    rw [hstep, tourDistance_shiftBack d (vc.take (q + 1))
        ((vc.drop (q + 2)).take (m - q - 1)) (vc.drop (m + 2))
        (vc.getD (q + 1) 0) (vc.getD (m + 1) 0) hA hF, ← hdec]
    have en1 : (m + 1 + vc.length - 1) % vc.length = m := by
      rw [show m + 1 + vc.length - 1 = vc.length + m by omega, Nat.add_mod_left,
        Nat.mod_eq_of_lt (by omega)]
    have en3 : (q + 1 + vc.length - 1) % vc.length = q := by
      rw [show q + 1 + vc.length - 1 = vc.length + q by omega, Nat.add_mod_left,
        Nat.mod_eq_of_lt (by omega)]
    have eFL : ((vc.drop (q + 2)).take (m - q - 1)).getLast?.getD 0
        = vc.getD m 0 := by
      have h := getLastD_drop_take vc (q + 2) (m - q - 1) (by omega) (by omega)
      rwa [show (q + 2) + (m - q - 1) - 1 = m by omega] at h
    have eAL : (vc.take (q + 1)).getLast?.getD 0 = vc.getD q 0 :=
      getLastD_take vc q (by omega)
    simp only [objectiveIncrSI, calcLocalMoveDistance, en1, en3]
    rw [eFL, eAL]
    by_cases hm2 : m + 2 < vc.length
    · have en2 : (m + 1 + 1) % vc.length = m + 2 := Nat.mod_eq_of_lt (by omega)
      have hG : vc.drop (m + 2) ≠ [] :=
        List.length_pos.mp (by rw [List.length_drop]; omega)
      rw [en2, headD_of_ne_nil (vc.drop (m + 2)) ((vc.take (q + 1)).headD 0) hG,
        headD_drop vc (m + 2)]
      ring
    · have hm2' : m + 2 = vc.length := by omega
      have en2 : (m + 1 + 1) % vc.length = 0 := by
        rw [show m + 1 + 1 = m + 2 from rfl, hm2', Nat.mod_self]
      have hGnil : vc.drop (m + 2) = [] := by
        rw [hm2', List.drop_length]
      rw [en2, hGnil]
      have eAH : ([] : List Nat).headD ((vc.take (q + 1)).headD 0)
          = vc.getD 0 0 := by
        rw [List.headD_nil, headD_take vc (q + 1) (by omega), getD_zero_eq_headD]
      rw [eAH]
      ring

/-- Witness for C3's amended identity: the backward move `(i, j) = (4, 1)` on a
concrete 6-city tour. -/
theorem shiftInsert_step_exact_backward_witness :
    tourDistance dW [0, 1, 2, 3, 4, 5] - objectiveIncrSI dW 6 [0, 1, 2, 3, 4, 5] 0 4 1
      = tourDistance dW (stepSI dW 6 [0, 1, 2, 3, 4, 5] 0 4 1).1 :=
  shiftInsert_step_exact_backward dW 6 [0, 1, 2, 3, 4, 5] 0 4 1 rfl
    (by decide) (by decide) (by decide)

/-- C4: `lower_bound_incr_add` never mutates the tour state — the method hands
`_update_lower_bound` copies of the two cursor arrays and only reads the other
fields of `self` — and calling it twice in a row with the same component
returns the same value. -/
theorem lowerBoundIncrAdd_pure (p : Problem) (s : Solution) (c : Nat × Nat) :
    (lowerBoundIncrAdd p s c).2 = s ∧
    (lowerBoundIncrAdd p (lowerBoundIncrAdd p s c).2 c).1
      = (lowerBoundIncrAdd p s c).1 := by
  have h : (lowerBoundIncrAdd p s c).2 = s := by cases s; rfl
  exact ⟨h, by rw [h]⟩

/-! ### Pheromone bookkeeping lemmas -/

lemma getD_map_range {α : Type} (f : Nat → α) {n i : Nat} (hi : i < n) (dflt : α) :
    ((List.range n).map f).getD i dflt = f i := by
  rw [List.getD_eq_getElem?_getD, List.getElem?_map, List.getElem?_range hi]
  rfl

lemma read_evaporate (ph : Pheromones) (n : Nat) (ρ : ℚ) {i j : Nat}
    (hi : i < n) (hj : j < n) :
    (ph.evaporate n ρ).read i j = ph.read i j * ρ := by
  simp only [Pheromones.evaporate, Pheromones.read]
  rw [getD_map_range _ hi, getD_map_range _ hj]

lemma pher_wf_evaporate (ph : Pheromones) (n : Nat) (ρ : ℚ) :
    ∃ rows, ph.evaporate n ρ = .proper rows ∧ rows.length = n ∧
      ∀ r ∈ rows, r.length = n := by
  refine ⟨_, rfl, by simp, ?_⟩
  intro r hr
  simp only [List.mem_map] at hr
  obtain ⟨x, _, rfl⟩ := hr
  simp

lemma getD_lt {n : Nat} (path : List Nat) (t : Nat) (hpath : ∀ c ∈ path, c < n)
    (hn : 0 < n) : path.getD t 0 < n := by
  by_cases h : t < path.length
  · rw [List.getD_eq_getElem?_getD, List.getElem?_eq_getElem h, Option.getD_some]
    exact hpath _ (List.getElem_mem h)
  · rw [List.getD_eq_getElem?_getD, List.getElem?_eq_none (by omega),
      Option.getD_none]
    exact hn

lemma pher_wf_deposit {n : Nat} {ph : Pheromones} (a b : Nat) (δ : ℚ)
    (h : ∃ rows, ph = Pheromones.proper rows ∧ rows.length = n ∧
      ∀ r ∈ rows, r.length = n)
    (ha : a < n) :
    ∃ rows, ph.deposit a b δ = Pheromones.proper rows ∧ rows.length = n ∧
      ∀ r ∈ rows, r.length = n := by
  obtain ⟨rows, rfl, hlen, hrow⟩ := h
  refine ⟨_, rfl, by rw [List.length_set]; exact hlen, ?_⟩
  intro r hr
  rcases List.mem_or_eq_of_mem_set hr with h' | h'
  · exact hrow r h'
  · subst h'
    rw [List.length_set]
    apply hrow
    have ha' : a < rows.length := by omega
    rw [List.getD_eq_getElem?_getD, List.getElem?_eq_getElem ha', Option.getD_some]
    exact List.getElem_mem ha'

lemma getD_set_eq {α : Type} (l : List α) (a : Nat) (x dflt : α)
    (h : a < l.length) : (l.set a x).getD a dflt = x := by
  rw [List.getD_eq_getElem?_getD, List.getElem?_set, if_pos rfl, if_pos h]
  rfl

lemma getD_set_ne {α : Type} (l : List α) (a t : Nat) (x dflt : α)
    (h : a ≠ t) : (l.set a x).getD t dflt = l.getD t dflt := by
  rw [List.getD_eq_getElem?_getD, List.getElem?_set, if_neg h,
    ← List.getD_eq_getElem?_getD]

lemma getD_replicate_lt {α : Type} (x dflt : α) {n i : Nat} (h : i < n) :
    (List.replicate n x).getD i dflt = x := by
  rw [List.getD_eq_getElem?_getD, List.getElem?_replicate, if_pos h]
  rfl

lemma pher_read_deposit {n : Nat} {ph : Pheromones} (a b : Nat) {i j : Nat} (δ : ℚ)
    (h : ∃ rows, ph = Pheromones.proper rows ∧ rows.length = n ∧
      ∀ r ∈ rows, r.length = n)
    (ha : a < n) (hb : b < n) (hi : i < n) (hj : j < n) :
    (ph.deposit a b δ).read i j
      = ph.read i j + (if i = a ∧ j = b then δ else 0) := by
  obtain ⟨rows, rfl, hlen, hrow⟩ := h
  have ha' : a < rows.length := by omega
  have hrowa : (rows.getD a []).length = n := by
    apply hrow
    rw [List.getD_eq_getElem?_getD, List.getElem?_eq_getElem ha', Option.getD_some]
    exact List.getElem_mem ha'
  simp only [Pheromones.deposit, Pheromones.read]
  by_cases hia : i = a
  · subst hia
    rw [getD_set_eq _ _ _ _ ha']
    by_cases hjb : j = b
    · subst hjb
      rw [getD_set_eq _ _ _ _ (by omega), if_pos ⟨rfl, rfl⟩]
    · rw [getD_set_ne _ _ _ _ _ (fun hc => hjb hc.symm),
        if_neg (fun hc => hjb hc.2), add_zero]
  · rw [getD_set_ne _ _ _ _ _ (fun hc => hia hc.symm),
      if_neg (fun hc => hia hc.1), add_zero]

lemma read_zeroPher {n i j : Nat} (hi : i < n) :
    (Pheromones.proper (List.replicate n (List.replicate n (0 : ℚ)))).read i j
      = 0 := by
  simp only [Pheromones.read]
  rw [getD_replicate_lt _ _ hi]
  by_cases hj : j < n
  · rw [getD_replicate_lt _ _ hj]
  · rw [List.getD_eq_getElem?_getD, List.getElem?_eq_none
      (by rw [List.length_replicate]; omega), Option.getD_none]

lemma pher_wf_zero (n : Nat) :
    ∃ rows, (Pheromones.proper (List.replicate n (List.replicate n (0 : ℚ))))
        = Pheromones.proper rows ∧ rows.length = n ∧ ∀ r ∈ rows, r.length = n := by
  refine ⟨_, rfl, by simp, ?_⟩
  intro r hr
  rw [List.eq_of_mem_replicate hr]
  simp

lemma pher_wf_depositAnt {n : Nat} {ph : Pheromones} (m : AcoMove)
    (h : ∃ rows, ph = Pheromones.proper rows ∧ rows.length = n ∧
      ∀ r ∈ rows, r.length = n)
    (hpath : ∀ c ∈ m.path, c < n) (hn : 0 < n) :
    ∃ rows, depositAnt n ph m = Pheromones.proper rows ∧ rows.length = n ∧
      ∀ r ∈ rows, r.length = n := by
  simp only [depositAnt]
  apply pher_wf_deposit _ _ _ _ (getD_lt m.path (n - 1) hpath hn)
  have key : ∀ (L : List Nat) (P : Pheromones),
      (∃ rows, P = Pheromones.proper rows ∧ rows.length = n ∧
        ∀ r ∈ rows, r.length = n) →
      ∃ rows, (L.foldl (fun ph i => ph.deposit (m.path.getD i 0)
          (m.path.getD (i + 1) 0) (10 / (m.distance : ℚ))) P)
        = Pheromones.proper rows ∧ rows.length = n ∧ ∀ r ∈ rows, r.length = n := by
    intro L
    induction L with
    | nil => intro P hP; exact hP
    | cons e L' ih =>
      intro P hP
      exact ih _ (pher_wf_deposit (m.path.getD e 0) (m.path.getD (e + 1) 0)
        (10 / (m.distance : ℚ)) hP (getD_lt m.path e hpath hn))
  exact key _ ph h

lemma read_depositAnt_add {n : Nat} {ph ph' : Pheromones} (m : AcoMove)
    {i j : Nat}
    (h : ∃ rows, ph = Pheromones.proper rows ∧ rows.length = n ∧
      ∀ r ∈ rows, r.length = n)
    (h' : ∃ rows, ph' = Pheromones.proper rows ∧ rows.length = n ∧
      ∀ r ∈ rows, r.length = n)
    (hpath : ∀ c ∈ m.path, c < n) (hn : 0 < n) (hi : i < n) (hj : j < n) :
    (depositAnt n ph m).read i j + ph'.read i j
      = (depositAnt n ph' m).read i j + ph.read i j := by
  have key : ∀ (L : List Nat) (P Q : Pheromones),
      (∃ rows, P = Pheromones.proper rows ∧ rows.length = n ∧
        ∀ r ∈ rows, r.length = n) →
      (∃ rows, Q = Pheromones.proper rows ∧ rows.length = n ∧
        ∀ r ∈ rows, r.length = n) →
      (L.foldl (fun ph i => ph.deposit (m.path.getD i 0)
          (m.path.getD (i + 1) 0) (10 / (m.distance : ℚ))) P).read i j + Q.read i j
        = (L.foldl (fun ph i => ph.deposit (m.path.getD i 0)
            (m.path.getD (i + 1) 0) (10 / (m.distance : ℚ))) Q).read i j
          + P.read i j := by
    intro L
    induction L with
    | nil =>
      intro P Q _ _
      simp only [List.foldl_nil]
      ring
    | cons e L' ih =>
      intro P Q hP hQ
      have ha := getD_lt m.path e hpath hn
      have hb := getD_lt m.path (e + 1) hpath hn
      have hrec := ih _ _
        (pher_wf_deposit (m.path.getD e 0) (m.path.getD (e + 1) 0)
          (10 / (m.distance : ℚ)) hP ha)
        (pher_wf_deposit (m.path.getD e 0) (m.path.getD (e + 1) 0)
          (10 / (m.distance : ℚ)) hQ ha)
      have e1 := pher_read_deposit (m.path.getD e 0) (m.path.getD (e + 1) 0)
        (10 / (m.distance : ℚ)) hP ha hb hi hj
      have e2 := pher_read_deposit (m.path.getD e 0) (m.path.getD (e + 1) 0)
        (10 / (m.distance : ℚ)) hQ ha hb hi hj
      simp only [List.foldl_cons]
      linarith [hrec, e1, e2]
  simp only [depositAnt]
  have ha := getD_lt m.path (n - 1) hpath hn
  have hb := getD_lt m.path 0 hpath hn
  have key' := key (List.range (n - 1)) ph ph' h h'
  have wP : ∃ rows, ((List.range (n - 1)).foldl (fun ph i => ph.deposit
      (m.path.getD i 0) (m.path.getD (i + 1) 0) (10 / (m.distance : ℚ))) ph)
      = Pheromones.proper rows ∧ rows.length = n ∧ ∀ r ∈ rows, r.length = n := by
    have go : ∀ (L : List Nat) (P : Pheromones),
        (∃ rows, P = Pheromones.proper rows ∧ rows.length = n ∧
          ∀ r ∈ rows, r.length = n) →
        ∃ rows, (L.foldl (fun ph i => ph.deposit (m.path.getD i 0)
            (m.path.getD (i + 1) 0) (10 / (m.distance : ℚ))) P)
          = Pheromones.proper rows ∧ rows.length = n ∧ ∀ r ∈ rows, r.length = n := by
      intro L
      induction L with
      | nil => intro P hP; exact hP
      | cons e L' ih =>
        intro P hP
        exact ih _ (pher_wf_deposit (m.path.getD e 0) (m.path.getD (e + 1) 0)
          (10 / (m.distance : ℚ)) hP (getD_lt m.path e hpath hn))
    exact go _ ph h
  have wQ : ∃ rows, ((List.range (n - 1)).foldl (fun ph i => ph.deposit
      (m.path.getD i 0) (m.path.getD (i + 1) 0) (10 / (m.distance : ℚ))) ph')
      = Pheromones.proper rows ∧ rows.length = n ∧ ∀ r ∈ rows, r.length = n := by
    have go : ∀ (L : List Nat) (P : Pheromones),
        (∃ rows, P = Pheromones.proper rows ∧ rows.length = n ∧
          ∀ r ∈ rows, r.length = n) →
        ∃ rows, (L.foldl (fun ph i => ph.deposit (m.path.getD i 0)
            (m.path.getD (i + 1) 0) (10 / (m.distance : ℚ))) P)
          = Pheromones.proper rows ∧ rows.length = n ∧ ∀ r ∈ rows, r.length = n := by
      intro L
      induction L with
      | nil => intro P hP; exact hP
      | cons e L' ih =>
        intro P hP
        exact ih _ (pher_wf_deposit (m.path.getD e 0) (m.path.getD (e + 1) 0)
          (10 / (m.distance : ℚ)) hP (getD_lt m.path e hpath hn))
    exact go _ ph' h'
  have f1 := pher_read_deposit (m.path.getD (n - 1) 0) (m.path.getD 0 0)
    (10 / (m.distance : ℚ)) wP ha hb hi hj
  have f2 := pher_read_deposit (m.path.getD (n - 1) 0) (m.path.getD 0 0)
    (10 / (m.distance : ℚ)) wQ ha hb hi hj
  linarith [key', f1, f2]

lemma read_stepAco_fold {n : Nat} (ρ : ℚ) {i j : Nat} (hn : 0 < n)
    (hi : i < n) (hj : j < n) :
    ∀ (ants : List AcoMove) (ph : Pheromones),
      (∃ rows, ph = Pheromones.proper rows ∧ rows.length = n ∧
        ∀ r ∈ rows, r.length = n) →
      (∀ a ∈ ants, ∀ c ∈ a.path, c < n) →
      (ants.foldl (fun ph m => (depositAnt n ph m).evaporate n ρ) ph).read i j
        = ρ ^ ants.length * ph.read i j
          + ∑ k ∈ Finset.range ants.length,
              ρ ^ (ants.length - k)
                * (depositAnt n (Pheromones.proper
                    (List.replicate n (List.replicate n 0)))
                    (ants.getD k ⟨[], 0⟩)).read i j := by
  intro ants
  induction ants with
  | nil =>
    intro ph hph _
    simp
  | cons a rest ih =>
    intro ph hph hpaths
    have hpa : ∀ c ∈ a.path, c < n := hpaths a (by simp)
    have hadd := read_depositAnt_add a hph (pher_wf_zero n) hpa hn hi hj
    rw [read_zeroPher hi] at hadd
    have hevap : ((depositAnt n ph a).evaporate n ρ).read i j
        = (depositAnt n ph a).read i j * ρ := read_evaporate _ n ρ hi hj
    have hwf := pher_wf_evaporate (depositAnt n ph a) n ρ
    have hrest := ih ((depositAnt n ph a).evaporate n ρ) hwf
      (fun x hx => hpaths x (by simp [hx]))
    simp only [List.foldl_cons, List.length_cons]
    rw [hrest, hevap, Finset.sum_range_succ']
    simp only [List.getD_cons_succ, List.getD_cons_zero, Nat.add_sub_add_right,
      Nat.sub_zero]
    have ha' : (depositAnt n ph a).read i j
        = ph.read i j + (depositAnt n (Pheromones.proper
            (List.replicate n (List.replicate n 0))) a).read i j := by
      linarith [hadd]
    rw [ha', pow_succ]
    ring

/-- C6 (amended): `Atsp3Aco.step` replaces the tour with the *first* ant of the
given list (the best one, since callers pass the ants sorted by ascending
length), and deposits `10/length` on every edge of each selected ant's cycle,
but multiplies the pheromone matrix by the evaporation factor once per
selected ant, inside the deposit loop, rather than exactly once after all
deposits: starting from any proper (non-aliased) matrix, entry `(i, j)` after
`step` equals `ρ^m` times its old value plus `ρ^(m-k)` times ant `k`'s deposits
at `(i, j)` — the `k`-th ant's deposits are evaporated `m-k` times.  (The
matrix built by `__init__` is additionally row-aliased; see the
counterexample.) -/
theorem acoStep_characterization (n : Nat) (ρ : ℚ) (st : AcoState)
    (ants : List AcoMove) (rows : List (List ℚ))
    (hph : st.pheromones = Pheromones.proper rows) (hrows : rows.length = n)
    (hrow : ∀ r ∈ rows, r.length = n) (hn : 0 < n)
    (hpath : ∀ a ∈ ants, ∀ c ∈ a.path, c < n)
    (i j : Nat) (hi : i < n) (hj : j < n) :
    (stepAco n ρ st ants).visited = (ants.headD ⟨[], 0⟩).path ∧
    (stepAco n ρ st ants).totalDistance = (ants.headD ⟨[], 0⟩).distance ∧
    (stepAco n ρ st ants).pheromones.read i j
      = ρ ^ ants.length * st.pheromones.read i j
        + ∑ k ∈ Finset.range ants.length,
            ρ ^ (ants.length - k)
              * (depositAnt n (Pheromones.proper
                  (List.replicate n (List.replicate n 0)))
                  (ants.getD k ⟨[], 0⟩)).read i j := by
  refine ⟨rfl, rfl, ?_⟩
  exact read_stepAco_fold ρ hn hi hj ants st.pheromones ⟨rows, hph, hrows, hrow⟩
    hpath

/-- Witness for C6's amended characterization on a concrete two-ant call over a
proper 2×2 matrix. -/
theorem acoStep_characterization_witness :
    (stepAco 2 (1 / 2) ⟨[0, 1], 5, 5, Pheromones.proper [[0, 0], [0, 0]]⟩
        [⟨[0, 1], 1⟩, ⟨[0, 1], 2⟩]).visited
      = (([⟨[0, 1], 1⟩, ⟨[0, 1], 2⟩] : List AcoMove).headD ⟨[], 0⟩).path ∧
    (stepAco 2 (1 / 2) ⟨[0, 1], 5, 5, Pheromones.proper [[0, 0], [0, 0]]⟩
        [⟨[0, 1], 1⟩, ⟨[0, 1], 2⟩]).totalDistance
      = (([⟨[0, 1], 1⟩, ⟨[0, 1], 2⟩] : List AcoMove).headD ⟨[], 0⟩).distance ∧
    (stepAco 2 (1 / 2) ⟨[0, 1], 5, 5, Pheromones.proper [[0, 0], [0, 0]]⟩
        [⟨[0, 1], 1⟩, ⟨[0, 1], 2⟩]).pheromones.read 0 1
      = (1 / 2 : ℚ) ^ 2
            * (Pheromones.proper [[0, 0], [0, 0]] : Pheromones).read 0 1
        + ∑ k ∈ Finset.range 2,
            (1 / 2 : ℚ) ^ (2 - k)
              * (depositAnt 2 (Pheromones.proper
                  (List.replicate 2 (List.replicate 2 0)))
                  (([⟨[0, 1], 1⟩, ⟨[0, 1], 2⟩] : List AcoMove).getD k ⟨[], 0⟩)).read
                  0 1 :=
  acoStep_characterization 2 (1 / 2) ⟨[0, 1], 5, 5, Pheromones.proper [[0, 0], [0, 0]]⟩
    [⟨[0, 1], 1⟩, ⟨[0, 1], 2⟩] [[0, 0], [0, 0]] rfl rfl (by decide) (by decide)
    (by decide) 0 1 (by decide) (by decide)

/-! ### Sparse Fisher-Yates lemmas -/

lemma validDraws_nil {m : Nat} : validDraws m [] = true ↔ m = 0 := by
  cases m <;> simp [validDraws]

lemma validDraws_succ {k r : Nat} {rs : List Nat} :
    validDraws (k + 1) (r :: rs) = true ↔ r ≤ k ∧ validDraws k rs = true := by
  simp [validDraws]

lemma validDraws_zero_cons {r : Nat} {rs : List Nat} :
    validDraws 0 (r :: rs) = false := rfl

lemma pget_nil (k : Nat) : pget [] k = k := rfl

lemma pget_cons (p : List (Nat × Nat)) (r x k : Nat) :
    pget ((r, x) :: p) k = if k = r then x else pget p k := by
  by_cases h : k = r
  · subst h
    simp [pget, List.lookup_cons]
  · have hb : (k == r) = false := by simpa using h
    simp [pget, List.lookup_cons, hb, h]

lemma set_take_map_range (p : List (Nat × Nat)) (k r : Nat) (hr : r ≤ k) :
    ((((List.range (k + 1)).map (pget p)).set r (pget p k)).take k)
      = (List.range k).map (pget (if k ≠ r then (r, pget p k) :: p else p)) := by
  apply List.ext_getElem?
  intro t
  have hRHS : ((List.range k).map
      (pget (if k ≠ r then (r, pget p k) :: p else p)))[t]?
      = if t < k then some (pget (if k ≠ r then (r, pget p k) :: p else p) t)
        else none := by
    by_cases ht : t < k
    · rw [List.getElem?_map, List.getElem?_range ht, if_pos ht]
      rfl
    · rw [List.getElem?_eq_none (by rw [List.length_map, List.length_range]; omega),
        if_neg ht]
  rw [hRHS, List.getElem?_take]
  by_cases ht : t < k
  · rw [if_pos ht, if_pos ht, List.getElem?_set]
    by_cases hrt : r = t
    · subst hrt
      rw [if_pos rfl, if_pos (by rw [List.length_map, List.length_range]; omega)]
      by_cases hkr : k = r
      · omega
      · rw [if_pos hkr, pget_cons, if_pos rfl]
    · rw [if_neg hrt, List.getElem?_map, List.getElem?_range (by omega)]
      by_cases hkr : k = r
      · rw [if_neg (fun hc => hc hkr)]
        rfl
      · rw [if_pos hkr, pget_cons, if_neg (fun hc => hrt hc.symm)]
        rfl
  · rw [if_neg ht, if_neg ht]

lemma sparseFYAux_eq_fisherYatesAux :
    ∀ (rs : List Nat) (m : Nat) (p : List (Nat × Nat)),
      validDraws m rs = true →
      sparseFYAux p (m - 1) rs = fisherYatesAux ((List.range m).map (pget p)) rs := by
  intro rs
  induction rs with
  | nil => intro m p _; rfl
  | cons r rs' ih =>
    intro m p h
    match m, h with
    | k + 1, h =>
      obtain ⟨hr, hv⟩ := validDraws_succ.mp h
      have hlen : (((List.range (k + 1)).map (pget p))).length = k + 1 := by
        rw [List.length_map, List.length_range]
      show pget p r :: sparseFYAux _ (k - 1) rs'
          = ((List.range (k + 1)).map (pget p)).getD r 0 :: fisherYatesAux _ rs'
      have hhead : ((List.range (k + 1)).map (pget p)).getD r 0 = pget p r :=
        getD_map_range (pget p) (by omega) 0
      have hlast : ((List.range (k + 1)).map (pget p)).getD
          ((((List.range (k + 1)).map (pget p))).length - 1) 0 = pget p k := by
        rw [hlen, Nat.add_sub_cancel]
        exact getD_map_range (pget p) (by omega) 0
      rw [hhead, hlast, hlen, Nat.add_sub_cancel, set_take_map_range p k r hr,
        ← ih k _ hv]

lemma fy_step_perm (a : List Nat) (r : Nat) (h : r < a.length) :
    a.Perm (a.getD r 0 :: (a.set r (a.getD (a.length - 1) 0)).take (a.length - 1)) := by
  by_cases hrk : r = a.length - 1
  · subst hrk
    have hset : (a.set (a.length - 1) (a.getD (a.length - 1) 0)).take (a.length - 1)
        = a.take (a.length - 1) := by
      apply List.ext_getElem?
      intro t
      rw [List.getElem?_take, List.getElem?_take]
      by_cases ht : t < a.length - 1
      · rw [if_pos ht, if_pos ht, List.getElem?_set, if_neg (by omega)]
      · rw [if_neg ht, if_neg ht]
    rw [hset]
    have hdecomp : a = a.take (a.length - 1) ++ [a.getD (a.length - 1) 0] := by
      conv_lhs => rw [← List.take_append_drop (a.length - 1) a]
      congr 1
      rw [drop_eq_getD_cons a (a.length - 1) (by omega)]
      congr 1
      rw [show a.length - 1 + 1 = a.length by omega]
      exact List.drop_length a
    conv_lhs => rw [hdecomp]
    exact List.perm_append_singleton _ _
  · have hrk' : r < a.length - 1 := by omega
    have hdecomp : a = a.take r ++ (a.getD r 0
        :: ((a.drop (r + 1)).take (a.length - 1 - (r + 1))
          ++ [a.getD (a.length - 1) 0])) := by
      conv_lhs => rw [← List.take_append_drop r a]
      congr 1
      rw [drop_eq_getD_cons a r (by omega)]
      congr 1
      conv_lhs => rw [← List.take_append_drop (a.length - 1 - (r + 1)) (a.drop (r + 1))]
      congr 1
      rw [List.drop_drop, show r + 1 + (a.length - 1 - (r + 1)) = a.length - 1 by omega,
        drop_eq_getD_cons a (a.length - 1) (by omega)]
      congr 1
      rw [show a.length - 1 + 1 = a.length by omega]
      exact List.drop_length a
    have hset : (a.set r (a.getD (a.length - 1) 0)).take (a.length - 1)
        = a.take r ++ (a.getD (a.length - 1) 0
            :: (a.drop (r + 1)).take (a.length - 1 - (r + 1))) := by
      rw [List.set_eq_take_append_cons_drop, if_pos h, List.take_append_eq_append_take,
        List.take_of_length_le (by rw [List.length_take]; omega),
        show a.length - 1 - (a.take r).length = a.length - 1 - r by
          rw [List.length_take]; congr 1; omega,
        show a.length - 1 - r = (a.length - 1 - (r + 1)) + 1 by omega,
        List.take_succ_cons]
    rw [hset]
    conv_lhs => rw [hdecomp]
    refine List.Perm.trans List.perm_middle ?_
    refine List.Perm.cons _ ?_
    exact List.Perm.append_left _ (List.perm_append_singleton _ _)

lemma fisherYatesAux_perm :
    ∀ (rs : List Nat) (a : List Nat), validDraws a.length rs = true →
      (fisherYatesAux a rs).Perm a := by
  intro rs
  induction rs with
  | nil =>
    intro a h
    rw [List.length_eq_zero.mp (validDraws_nil.mp h)]
    exact List.Perm.refl _
  | cons r rs' ih =>
    intro a h
    match hm : a.length, h with
    | k + 1, h =>
      obtain ⟨hr, hv⟩ := validDraws_succ.mp h
      show (a.getD r 0
          :: fisherYatesAux ((a.set r (a.getD (a.length - 1) 0)).take (a.length - 1))
            rs').Perm a
      have hlenb : ((a.set r (a.getD (a.length - 1) 0)).take (a.length - 1)).length
          = k := by
        rw [List.length_take, List.length_set]; omega
      have hb := ih _ (by rw [hlenb]; exact hv)
      have hstep := fy_step_perm a r (by omega)
      exact (List.Perm.cons _ hb).trans hstep.symm

lemma fy_exists :
    ∀ (l : List Nat) (a : List Nat), a.Nodup → l.Perm a →
      ∃ rs, validDraws a.length rs = true ∧ fisherYatesAux a rs = l := by
  intro l
  induction l with
  | nil =>
    intro a _ hperm
    have ha : a = [] := hperm.symm.eq_nil
    subst ha
    exact ⟨[], rfl, rfl⟩
  | cons x l' ih =>
    intro a hnd hperm
    have hx : x ∈ a := hperm.subset (List.mem_cons_self x l')
    have hr : a.indexOf x < a.length := List.indexOf_lt_length.mpr hx
    have hgr : a.getD (a.indexOf x) 0 = x := by
      rw [getElemD_eq a _ hr]
      exact List.getElem_indexOf hr
    have hstep := fy_step_perm a (a.indexOf x) hr
    rw [hgr] at hstep
    have hbperm : l'.Perm ((a.set (a.indexOf x) (a.getD (a.length - 1) 0)).take
        (a.length - 1)) :=
      (hperm.trans hstep).cons_inv
    have hbnd : ((a.set (a.indexOf x) (a.getD (a.length - 1) 0)).take
        (a.length - 1)).Nodup :=
      ((hstep.nodup hnd).of_cons)
    obtain ⟨rs', hv', hfy'⟩ := ih _ hbnd hbperm
    have hlenb : ((a.set (a.indexOf x) (a.getD (a.length - 1) 0)).take
        (a.length - 1)).length = a.length - 1 := by
      rw [List.length_take, List.length_set]; omega
    refine ⟨a.indexOf x :: rs', ?_, ?_⟩
    · match hm : a.length, hr with
      | k + 1, hr =>
        rw [validDraws_succ]
        refine ⟨by omega, ?_⟩
        rw [hlenb, hm] at hv'
        simpa using hv'
    · show a.getD (a.indexOf x) 0 :: fisherYatesAux _ rs' = x :: l'
      rw [hgr, hfy']

lemma fy_inj :
    ∀ (rs₁ rs₂ : List Nat) (a : List Nat), a.Nodup →
      validDraws a.length rs₁ = true → validDraws a.length rs₂ = true →
      fisherYatesAux a rs₁ = fisherYatesAux a rs₂ → rs₁ = rs₂ := by
  intro rs₁
  induction rs₁ with
  | nil =>
    intro rs₂ a _ h1 h2 _
    rw [validDraws_nil.mp h1] at h2
    cases rs₂ with
    | nil => rfl
    | cons r t => exact absurd h2 (by rw [validDraws_zero_cons]; simp)
  | cons r₁ t₁ ih =>
    intro rs₂ a hnd h1 h2 heq
    match hm : a.length, h1, h2 with
    | k + 1, h1, h2 =>
      cases rs₂ with
      | nil => exact absurd (validDraws_nil.mp h2) (by omega)
      | cons r₂ t₂ =>
        obtain ⟨hr₁, hv₁⟩ := validDraws_succ.mp h1
        obtain ⟨hr₂, hv₂⟩ := validDraws_succ.mp h2
        simp only [fisherYatesAux, List.cons.injEq] at heq
        obtain ⟨hhead, htail⟩ := heq
        have hr₁' : r₁ < a.length := by omega
        have hr₂' : r₂ < a.length := by omega
        have hrr : r₁ = r₂ := by
          rw [getElemD_eq a r₁ hr₁', getElemD_eq a r₂ hr₂'] at hhead
          exact (List.Nodup.getElem_inj_iff hnd).mp hhead
        subst hrr
        congr 1
        have hlenb : ((a.set r₁ (a.getD (a.length - 1) 0)).take (a.length - 1)).length
            = k := by
          rw [List.length_take, List.length_set]; omega
        have hbnd : ((a.set r₁ (a.getD (a.length - 1) 0)).take (a.length - 1)).Nodup :=
          ((fy_step_perm a r₁ hr₁').nodup hnd).of_cons
        exact ih t₂ _ hbnd (by rw [hlenb]; exact hv₁) (by rw [hlenb]; exact hv₂) htail

/-- C5: driven by the same stream of uniform draws `r ∈ [0, i]`,
`sparse_fisher_yates_iter(n)` emits exactly the output order of the classic
Fisher-Yates shuffle of `{0..n-1}`; its output is a permutation of `{0..n-1}`;
and every permutation of `{0..n-1}` is produced by exactly one valid draw
sequence, so uniform draws make every one of the `n!` permutations equally
likely. -/
theorem sparseFY_spec (n : Nat) (rs : List Nat) (h : validDraws n rs = true) :
    sparseFY n rs = fisherYates n rs ∧
    (sparseFY n rs).Perm (List.range n) ∧
    ∀ l : List Nat, l.Perm (List.range n) →
      ∃! ds : List Nat, validDraws n ds = true ∧ sparseFY n ds = l := by
  have hid : (List.range n).map (pget []) = List.range n := by
    rw [List.map_congr_left (fun x _ => pget_nil x)]
    exact List.map_id' _
  have hsf : ∀ ds, validDraws n ds = true → sparseFY n ds = fisherYates n ds := by
    intro ds hds
    rw [sparseFY, fisherYates, sparseFYAux_eq_fisherYatesAux ds n [] hds, hid]
  refine ⟨hsf rs h, ?_, ?_⟩
  · rw [hsf rs h, fisherYates]
    exact fisherYatesAux_perm rs (List.range n) (by rw [List.length_range]; exact h)
  · intro l hl
    obtain ⟨ds, hv, hfy⟩ := fy_exists l (List.range n) (List.nodup_range n) hl
    rw [List.length_range] at hv
    refine ⟨ds, ⟨hv, by rw [hsf ds hv, fisherYates]; exact hfy⟩, ?_⟩
    rintro ds' ⟨hv', hs'⟩
    refine fy_inj ds' ds (List.range n) (List.nodup_range n)
      (by rw [List.length_range]; exact hv') (by rw [List.length_range]; exact hv) ?_
    have h1 : fisherYatesAux (List.range n) ds' = l := by
      rw [← fisherYates, ← hsf ds' hv']
      exact hs'
    rw [h1, hfy]

/-- Witness for C5 at `n = 3` with the draw sequence `[1, 0, 0]`. -/
theorem sparseFY_spec_witness :
    sparseFY 3 [1, 0, 0] = fisherYates 3 [1, 0, 0] ∧
    (sparseFY 3 [1, 0, 0]).Perm (List.range 3) :=
  ⟨(sparseFY_spec 3 [1, 0, 0] (by decide)).1,
   (sparseFY_spec 3 [1, 0, 0] (by decide)).2.1⟩

end TSP
